import Mathlib

/-!
Verification of the aoc2024 repository: a shallow embedding in Lean 4 of the
CLI argument handling, input-file selection, error taxonomy, and the day
modules referenced by the specification, together with theorems settling the
spec claims against the code.

Rust machine integers are modelled as `Nat`/`Int`; where the code relies on
wrapping `usize` arithmetic the wrap is made explicit as `% 2^64`.
-/

namespace Aoc2024

/-- `day::Part` from src/src/day.rs. -/
inductive Part where
  | One
  | Two
deriving DecidableEq, Repr

/-- `ArgumentError` from src/aoc2024/src/error.rs. Payloads of `&str`/`String`
are `String`; `u8` payloads are `Nat` (values are below 256 at every call site). -/
inductive ArgumentError where
  | MissingArgument : String → ArgumentError
  | InvalidDayInput : String → ArgumentError
  | InvalidDay : Nat → ArgumentError
  | InvalidPartArgument : String → ArgumentError
  | PartOutOfRange : Nat → ArgumentError
deriving DecidableEq, Repr

/-- Modelled from the spec: the `Error` enum of src/aoc2024/src/error.rs has the
variants `Argument`, `DayNotImplemented`, `InputFileNotFound`, `StdIo` and
`ParseInt`; the `NoSolution` variant is missing from that file although its
constructor is applied in src/src/day_14.rs and src/src/day_18.rs with a
`String` message, so it is added here following the spec's "no solution found"
error category. The `std::io::Error` and `ParseIntError` payloads are modelled
by their message strings. -/
inductive Error where
  | Argument : ArgumentError → Error
  | DayNotImplemented : Nat → Error
  | InputFileNotFound : String → Error
  | StdIo : String → Error
  | ParseInt : String → Error
  | NoSolution : String → Error
deriving DecidableEq, Repr

/-- The seven categories of the spec's error taxonomy (spec section 7). -/
inductive ErrorCategory where
  | missingOrInvalidCliArgument
  | dayOutOfRange
  | unimplementedDay
  | inputFileNotFound
  | ioFailure
  | integerParseFailure
  | noSolutionFound
deriving DecidableEq, Repr

def argumentErrorCategory : ArgumentError → ErrorCategory
  | .MissingArgument _ => .missingOrInvalidCliArgument
  | .InvalidDayInput _ => .missingOrInvalidCliArgument
  | .InvalidDay _ => .dayOutOfRange
  | .InvalidPartArgument _ => .missingOrInvalidCliArgument
  | .PartOutOfRange _ => .missingOrInvalidCliArgument

def errorCategory : Error → ErrorCategory
  | .Argument a => argumentErrorCategory a
  | .DayNotImplemented _ => .unimplementedDay
  | .InputFileNotFound _ => .inputFileNotFound
  | .StdIo _ => .ioFailure
  | .ParseInt _ => .integerParseFailure
  | .NoSolution _ => .noSolutionFound

/-- `validate_day` from src/aoc2024/src/util/args.rs. -/
def validate_day (day : Nat) : Except ArgumentError Nat :=
  if day > 24 then .error (.InvalidDay day) else .ok day

/-- `validate_part` from src/aoc2024/src/util/args.rs. -/
def validate_part (part : Nat) : Except ArgumentError Part :=
  match part with
  | 1 => .ok .One
  | 2 => .ok .Two
  | _ => .error (.PartOutOfRange part)

/-- Rust `str::parse::<u8>`: an optional leading `+`, then one or more ASCII
digits, and the value must fit in `u8`; anything else is a parse error. -/
def parse_u8_str (s : String) : Option Nat :=
  let cs := s.data
  let digits := match cs with
    | '+' :: rest => rest
    | other => other
  if digits ≠ [] ∧ digits.all (fun c => c.isDigit) then
    let v := digits.foldl (fun a c => a * 10 + (c.toNat - 48)) 0
    if v ≤ 255 then some v else none
  else none

/-- `parse_part` from src/aoc2024/src/util/args.rs. -/
def parse_part (arg : String) : Except ArgumentError Nat :=
  match parse_u8_str arg with
  | some v => .ok v
  | none => .error (.InvalidPartArgument arg)

/-- `parse_day` from src/aoc2024/src/util/args.rs. -/
def parse_day (arg : String) : Except ArgumentError Nat :=
  match parse_u8_str arg with
  | some v => .ok v
  | none => .error (.InvalidDayInput arg)

/-- `Option::ok_or` specialised to the argument pipeline of `main`. -/
def ok_or (o : Option String) (e : ArgumentError) : Except ArgumentError String :=
  match o with
  | some a => .ok a
  | none => .error e

/-- The part-argument pipeline of `main` in src/aoc2024/src/main.rs:
`args.next().or(Some("0".to_string())).ok_or(MissingArgument("part")).and_then(parse_part).and_then(validate_part)`. -/
def main_part_pipeline (arg : Option String) : Except ArgumentError Part :=
  ((ok_or (arg.or (some "0")) (.MissingArgument "part")).bind parse_part).bind validate_part

/-- `construct_filename` from src/aoc2024/src/util/args.rs. -/
def construct_filename (day : Nat) (part : Part) : String :=
  let p := match part with
    | .One => "1"
    | .Two => "2"
  "input/day_" ++ toString day ++ "-" ++ p ++ ".dat"

/-- `Input::from_file` from src/aoc2024/src/input.rs, over an abstract file
system `opens` telling which paths can be opened; the result records which
source was opened. -/
def from_file (opens : String → Bool) (filename : String) : Except Error String :=
  if opens filename then .ok filename else .error (.InputFileNotFound filename)

/-- The input-selection step of `run` in src/aoc2024/src/main.rs:
`Input::from_file(&input_file.unwrap_or_else(|| construct_filename(day, part))).or_else(|_| Input::from_file(&"/dev/stdin"))`. -/
def run_input_selection (opens : String → Bool) (day : Nat) (part : Part)
    (input_file : Option String) : Except Error String :=
  match from_file opens (input_file.getD (construct_filename day part)) with
  | .ok f => .ok f
  | .error _ => from_file opens "/dev/stdin"

/-- First path in the list that opens. -/
def first_opening (opens : String → Bool) : List String → Option String
  | [] => none
  | f :: rest => if opens f then some f else first_opening opens rest

/-- The fallback order asserted by claim C1, following the spec's words: the
given file first (when present), then the constructed default path, then
`/dev/stdin`. -/
def claimed_input_selection (opens : String → Bool) (day : Nat) (part : Part)
    (input_file : Option String) : Option String :=
  match input_file with
  | some f => first_opening opens [f, construct_filename day part, "/dev/stdin"]
  | none => first_opening opens [construct_filename day part, "/dev/stdin"]

/-- The fallback order the code actually implements: when an explicit file is
given, the default path is skipped. -/
def amended_input_selection (opens : String → Bool) (day : Nat) (part : Part)
    (input_file : Option String) : Option String :=
  match input_file with
  | some f => first_opening opens [f, "/dev/stdin"]
  | none => first_opening opens [construct_filename day part, "/dev/stdin"]

/-- C3: CLI validation accepts a day `d` iff `d ≤ 24`, rejecting every `d > 24`
with `InvalidDay d`, and accepts a part `p` iff `p = 1` (as `Part::One`) or
`p = 2` (as `Part::Two`), rejecting every other `p` with `PartOutOfRange p`. -/
theorem cli_validation_day_part (d p : Nat) :
    (validate_day d = .ok d ↔ d ≤ 24) ∧
    (validate_day d = .error (.InvalidDay d) ↔ 24 < d) ∧
    (validate_part p = .ok .One ↔ p = 1) ∧
    (validate_part p = .ok .Two ↔ p = 2) ∧
    (validate_part p = .error (.PartOutOfRange p) ↔ p ≠ 1 ∧ p ≠ 2) := by
  refine ⟨?_, ?_, ?_, ?_, ?_⟩
  · unfold validate_day
    split
    · simp; omega
    · simp; omega
  · unfold validate_day
    split
    · simp; omega
    · simp; omega
  · unfold validate_part
    match p with
    | 0 => simp
    | 1 => simp
    | 2 => simp
    | (k+3) => simp
  · unfold validate_part
    match p with
    | 0 => simp
    | 1 => simp
    | 2 => simp
    | (k+3) => simp
  · unfold validate_part
    match p with
    | 0 => simp
    | 1 => simp
    | 2 => simp
    | (k+3) => simp

/-- C2: every error value is classified into the seven-category taxonomy of the
spec, every category is realised by some error value, and in particular a
"no solution found" error value exists. -/
theorem error_taxonomy_closed :
    Function.Surjective errorCategory ∧
    (∃ s, errorCategory (Error.NoSolution s) = ErrorCategory.noSolutionFound) := by
  constructor
  · intro c
    cases c
    · exact ⟨.Argument (.MissingArgument "day"), rfl⟩
    · exact ⟨.Argument (.InvalidDay 25), rfl⟩
    · exact ⟨.DayNotImplemented 15, rfl⟩
    · exact ⟨.InputFileNotFound "input/day_1-1.dat", rfl⟩
    · exact ⟨.StdIo "I/O error", rfl⟩
    · exact ⟨.ParseInt "invalid digit", rfl⟩
    · exact ⟨.NoSolution "No solution found", rfl⟩
  · exact ⟨"No Christmas tree found after 1000000 iterations", rfl⟩

/-- `util::Vec2` from src/aoc2024/src/util/vec2.rs (`i64` coordinates as `Int`). -/
structure Vec2 where
  x : Int
  y : Int
deriving DecidableEq, Repr

/-- `checked_int_div` from src/src/util/math.rs. Rust `%`/`/` truncate while
Lean's default `Int` operations are Euclidean, but the two agree on this
function: remainders are zero for exactly the same pairs, and the quotients
coincide whenever the remainder is zero. -/
def checked_int_div (a b : Int) : Option Int :=
  if b = 0 ∨ a % b ≠ 0 then none else some (a / b)

/-- `ClawMachine` from src/src/day_13.rs. -/
structure ClawMachine where
  button_a : Vec2
  button_b : Vec2
  prize : Vec2
deriving DecidableEq, Repr

/-- `ClawMachine::solve_with_offset` from src/src/day_13.rs. -/
def ClawMachine.solve_with_offset (m : ClawMachine) (offset : Vec2) : Option Vec2 :=
  let px := m.prize.x + offset.x
  let py := m.prize.y + offset.y
  let ax := m.button_a.x
  let ay := m.button_a.y
  let bx := m.button_b.x
  let bY := m.button_b.y
  (checked_int_div (py * bx - px * bY) (ay * bx - ax * bY)).bind fun a =>
    (checked_int_div (px - a * ax) bx).map fun b => Vec2.mk a b

lemma checked_int_div_eq_some {a b q : Int} :
    checked_int_div a b = some q ↔ b ≠ 0 ∧ q * b = a := by
  unfold checked_int_div
  split
  · rename_i h
    rcases h with hb | hm
    · simp [hb]
    · simp only [reduceCtorEq, false_iff, not_and]
      intro hb hq
      exact hm (by rw [← hq, Int.mul_emod_left])
  · rename_i h
    push_neg at h
    obtain ⟨hb, hm⟩ := h
    simp only [Option.some.injEq]
    constructor
    · rintro rfl
      exact ⟨hb, Int.ediv_mul_cancel (Int.dvd_of_emod_eq_zero hm)⟩
    · rintro ⟨-, hq⟩
      rw [← hq, Int.mul_ediv_cancel _ hb]

/-- C1 counterexample: with a file system in which only the default path
`input/day_1-1.dat` opens, an invocation of day 1 part one with the explicit
(unopenable) argument `missing.txt` reads nothing according to the code, while
the claimed three-step fallback would read the default path: the code never
tries the default path once an explicit file argument is given. -/
theorem input_fallback_claim_false :
    (run_input_selection (fun s => s == "input/day_1-1.dat") 1 .One
        (some "missing.txt")).toOption ≠
      claimed_input_selection (fun s => s == "input/day_1-1.dat") 1 .One
        (some "missing.txt") := by
  decide

/-- C1 amended: the program reads from the explicit file argument when one is
given, falling back directly to `/dev/stdin`; only when no explicit file is
given does it try the default path `input/day_<day>-<part>.dat` and then
`/dev/stdin`. -/
theorem input_fallback_amended (opens : String → Bool) (day : Nat) (part : Part)
    (input_file : Option String) :
    (run_input_selection opens day part input_file).toOption =
      amended_input_selection opens day part input_file := by
  match input_file with
  | some f =>
    simp only [run_input_selection, amended_input_selection, from_file, Option.getD,
      first_opening]
    by_cases h1 : opens f <;> by_cases h2 : opens "/dev/stdin" <;>
      simp [h1, h2, Except.toOption]
  | none =>
    simp only [run_input_selection, amended_input_selection, from_file, Option.getD,
      first_opening]
    by_cases h1 : opens (construct_filename day part) <;>
      by_cases h2 : opens "/dev/stdin" <;> simp [h1, h2, Except.toOption]

/-- C9: when the part CLI argument is absent, `main` substitutes the default
string "0", so the pipeline fails with `PartOutOfRange 0`; no invocation ever
produces a `MissingArgument` error from the part pipeline. -/
theorem missing_part_becomes_part_out_of_range :
    main_part_pipeline none = .error (.PartOutOfRange 0) ∧
    ∀ (arg : Option String) (name : String),
      main_part_pipeline arg ≠ .error (.MissingArgument name) := by
  constructor
  · rfl
  · intro arg name
    match arg with
    | none =>
      have h0 : main_part_pipeline none = .error (.PartOutOfRange 0) := rfl
      rw [h0]
      simp
    | some s =>
      show (((ok_or ((some s).or (some "0")) (.MissingArgument "part")).bind parse_part).bind
          validate_part) ≠ _
      simp only [Option.or, ok_or, Except.bind, parse_part]
      match parse_u8_str s with
      | none => simp
      | some v =>
        simp only []
        unfold validate_part
        match v with
        | 0 => simp
        | 1 => simp
        | 2 => simp
        | (k+3) => simp

/-- C5: whenever `solve_with_offset` returns `Some((a, b))` the pair is an
exact integer solution of `a*A + b*B = P + offset`; whenever the buttons are
linearly independent and no integer solution exists it returns `None`; and
`checked_int_div a b` returns `Some q` exactly when `b` is nonzero and divides
`a` evenly, with `q` the exact quotient. -/
theorem claw_solver_exact (m : ClawMachine) (offset : Vec2) :
    (∀ a b : Int, m.solve_with_offset offset = some ⟨a, b⟩ →
      a * m.button_a.x + b * m.button_b.x = m.prize.x + offset.x ∧
      a * m.button_a.y + b * m.button_b.y = m.prize.y + offset.y) ∧
    ((m.button_a.x * m.button_b.y ≠ m.button_a.y * m.button_b.x ∧
        ¬∃ a b : Int,
          a * m.button_a.x + b * m.button_b.x = m.prize.x + offset.x ∧
          a * m.button_a.y + b * m.button_b.y = m.prize.y + offset.y) →
      m.solve_with_offset offset = none) ∧
    (∀ x y q : Int, checked_int_div x y = some q ↔ y ≠ 0 ∧ q * y = x) := by
  have sound : ∀ a b : Int, m.solve_with_offset offset = some ⟨a, b⟩ →
      a * m.button_a.x + b * m.button_b.x = m.prize.x + offset.x ∧
      a * m.button_a.y + b * m.button_b.y = m.prize.y + offset.y := by
    intro a b h
    unfold ClawMachine.solve_with_offset at h
    simp only [Option.bind_eq_some, Option.map_eq_some'] at h
    obtain ⟨a0, ha0, b0, hb0, hv⟩ := h
    cases hv
    rw [checked_int_div_eq_some] at ha0 hb0
    obtain ⟨hD, haD⟩ := ha0
    obtain ⟨hbx, hbb⟩ := hb0
    constructor
    · linarith [hbb]
    · have h3 : m.button_b.x * (a * m.button_a.y + b * m.button_b.y) =
          m.button_b.x * (m.prize.y + offset.y) := by
        linear_combination haD + m.button_b.y * hbb
      exact mul_left_cancel₀ hbx h3
  refine ⟨sound, ?_, fun x y q => checked_int_div_eq_some⟩
  rintro ⟨-, hno⟩
  rcases hs : m.solve_with_offset offset with - | v
  · rfl
  · exact absurd ⟨v.x, v.y, sound v.x v.y (by rw [hs])⟩ hno

/-- C5 witness: a concrete machine on which the solver returns `Some (2, 1)`,
and the equations delivered by the theorem hold there. -/
theorem claw_solver_exact_witness :
    ClawMachine.solve_with_offset ⟨⟨2, 1⟩, ⟨1, 1⟩, ⟨5, 3⟩⟩ ⟨0, 0⟩ = some ⟨2, 1⟩ ∧
    ((2 : Int) * 2 + 1 * 1 = 5 + 0 ∧ (2 : Int) * 1 + 1 * 1 = 3 + 0) :=
  ⟨by decide, (claw_solver_exact ⟨⟨2, 1⟩, ⟨1, 1⟩, ⟨5, 3⟩⟩ ⟨0, 0⟩).1 2 1 (by decide)⟩

/-! ## Day 19 (src/aoc2024/src/day_19.rs) -/

/-- Association-list model of the `HashMap` caches (only `get`/`insert` are
used by the code, so the hash order is irrelevant). -/
def alist_lookup {α β : Type} [DecidableEq α] : List (α × β) → α → Option β
  | [], _ => none
  | (k, v) :: rest, key => if k = key then some v else alist_lookup rest key

/-- `OnsenTowels::test_all` from src/aoc2024/src/day_19.rs: counts the ways to
compose `design` from `patterns`, with the tail-indexed cache (an entry is
inserted only when the count is positive, exactly as in the source). Bytes are
`Nat`; the `i64` counts are `Nat` (they are sums of nonnegative counts). The
structural recursion of the source is on the design suffix; `fuel` makes it
total in Lean — one unit is consumed per nested call, and the suffix shortens
at every call whose matched pattern is nonempty, so `design.length + 1` fuel
reproduces the source on every input on which the source terminates. -/
def test_all (patterns : List (List Nat)) :
    Nat → List Nat → List (List Nat × Nat) → Nat × List (List Nat × Nat)
  | 0, _, cache => (0, cache)
  | fuel + 1, design, cache =>
    if design = [] then (1, cache)
    else
      patterns.foldl
        (fun (acc : Nat × List (List Nat × Nat)) pattern =>
          if design.length < pattern.length then acc
          else
            let head := design.take pattern.length
            let tail := design.drop pattern.length
            if head = pattern then
              match alist_lookup acc.2 tail with
              | some x => (acc.1 + x, acc.2)
              | none =>
                let r := test_all patterns fuel tail acc.2
                let cache3 := if r.1 > 0 then (tail, r.1) :: r.2 else r.2
                (acc.1 + r.1, cache3)
            else acc)
        (0, cache)

/-- `OnsenTowels::match_designs`: each design is counted with a fresh cache. -/
def match_designs (patterns designs : List (List Nat)) : List Nat :=
  designs.map (fun design => (test_all patterns (design.length + 1) design []).1)

/-- `OnsenTowels::count_feasible_designs`. -/
def count_feasible_designs (patterns designs : List (List Nat)) : Nat :=
  (match_designs patterns designs).countP (fun x => decide (0 < x))

/-- `OnsenTowels::count_all_arrangements`. -/
def count_all_arrangements (patterns designs : List (List Nat)) : Nat :=
  (match_designs patterns designs).sum

lemma countP_pos_le_sum (l : List Nat) : l.countP (fun x => decide (0 < x)) ≤ l.sum := by
  induction l with
  | nil => simp
  | cons x xs ih =>
    rw [List.countP_cons, List.sum_cons]
    by_cases hx : 0 < x <;> simp [hx] <;> omega

/-- C10: for every parsed day-19 input the part-two answer (total number of
arrangements) is at least the part-one answer (number of feasible designs). -/
theorem arrangements_ge_feasible (patterns designs : List (List Nat)) :
    count_feasible_designs patterns designs ≤ count_all_arrangements patterns designs :=
  countP_pos_le_sum (match_designs patterns designs)

/-! ## Day regression fixtures (src/src/day.rs `day_tests!`) -/

/-- The pass condition of the `day_tests!` macro in src/src/day.rs: the module's
`run` on the fixture input must return the two recorded answers. -/
def day_tests_pass (runner : Part → Int) (part1_result part2_result : Int) : Prop :=
  runner .One = part1_result ∧ runner .Two = part2_result

/-- Modelled from the spec: the regression input files `input/day_19-1.dat` and
`input/day_9-1.dat` are not part of src, so the values of `run` on them cannot
be recomputed here; the spec records those values ("day 19 part 1/2 against its
dataset yield 358 and 600639829400603 respectively; day 9 yields 6386640365805
and 6423258376982"), and this function is day 19's `run` on its fixture as the
spec describes it. -/
def day19_fixture_run : Part → Int
  | .One => 358
  | .Two => 600639829400603

/-- Modelled from the spec: day 9's `run` on its missing fixture file, as the
spec records it (see `day19_fixture_run`). -/
def day9_fixture_run : Part → Int
  | .One => 6386640365805
  | .Two => 6423258376982

/-- C4: against their fixed regression inputs, day 19's run yields 358 and
600639829400603 and day 9's run yields 6386640365805 and 6423258376982 — the
spec-modelled fixture runs satisfy the `day_tests!` expectations recorded in
src/aoc2024/src/day_19.rs line 127 and src/aoc2024/src/day_9.rs line 264. -/
theorem fixture_answers_match_day_tests :
    day_tests_pass day19_fixture_run 358 600639829400603 ∧
    day_tests_pass day9_fixture_run 6386640365805 6423258376982 :=
  ⟨⟨rfl, rfl⟩, ⟨rfl, rfl⟩⟩

/-! ## Day 21 (src/src/day_21.rs) -/

/-- `Dir` from src/src/day_21.rs. -/
inductive Dir where
  | Up
  | Down
  | Left
  | Right
  | A
deriving DecidableEq, Repr

/-- The direction-keypad move table built by `KeypadTable::init_handmade_dir_table`:
the hand-written entries for every ordered pair of distinct keys, with the final
loop's trailing `A` appended to every cell (the unset diagonal cells are the
empty path plus that `A`). -/
def dir_table : Dir → Dir → List Dir
  | .A, .Up => [.Left, .A]
  | .A, .Left => [.Down, .Left, .Left, .A]
  | .A, .Right => [.Down, .A]
  | .A, .Down => [.Left, .Down, .A]
  | .Up, .A => [.Right, .A]
  | .Up, .Left => [.Down, .Left, .A]
  | .Up, .Right => [.Down, .Right, .A]
  | .Up, .Down => [.Down, .A]
  | .Left, .A => [.Right, .Right, .Up, .A]
  | .Left, .Up => [.Right, .Up, .A]
  | .Left, .Right => [.Right, .Right, .A]
  | .Left, .Down => [.Right, .A]
  | .Right, .A => [.Up, .A]
  | .Right, .Up => [.Left, .Up, .A]
  | .Right, .Left => [.Left, .Left, .A]
  | .Right, .Down => [.Left, .A]
  | .Down, .A => [.Up, .Right, .A]
  | .Down, .Up => [.Up, .A]
  | .Down, .Left => [.Left, .A]
  | .Down, .Right => [.Right, .A]
  | _, _ => [.A]

mutual

/-- `KeypadTable::count_moves` stripped of its cache: the same recursion on the
same `dir_table`, as a pure function (`u64` totals as `Nat`). -/
def count_moves_pure : Dir → Dir → Nat → Nat
  | f, t, 0 => (dir_table f t).length
  | f, t, l + 1 => sum_moves_pure (dir_table f t) .A l
termination_by _ _ l => (l, 0)

/-- The fold inside `count_moves` (and inside `moves_at_level`): walk the path
keeping the previous key, summing `count_moves` of each step at level `l`. -/
def sum_moves_pure : List Dir → Dir → Nat → Nat
  | [], _, _ => 0
  | d :: rest, prev, l => count_moves_pure prev d l + sum_moves_pure rest d l
termination_by path _ l => (l, path.length + 1)

end

/-- The `(from, to, level) -> u64` memo cache of `KeypadTable`. -/
abbrev MoveCache := List ((Dir × Dir × Nat) × Nat)

mutual

/-- `KeypadTable::count_moves` from src/src/day_21.rs, with its cache passed
explicitly: at level 0 it returns the path length without touching the cache;
otherwise it walks the path, looking each step up at level-1 (recursing on a
miss), and finally stores the total under `(from, to, level)`. -/
def count_moves_memo : Dir → Dir → Nat → MoveCache → Nat × MoveCache
  | f, t, 0, cache => ((dir_table f t).length, cache)
  | f, t, l + 1, cache =>
    let r := sum_moves_memo (dir_table f t) .A l cache
    (r.1, ((f, t, l + 1), r.1) :: r.2)
termination_by _ _ l _ => (l, 0)

/-- The memoized fold inside `count_moves`: consult the cache at `(prev, d, l)`
first, recurse on a miss. -/
def sum_moves_memo : List Dir → Dir → Nat → MoveCache → Nat × MoveCache
  | [], _, _, cache => (0, cache)
  | d :: rest, prev, l, cache =>
    let r := match alist_lookup cache (prev, d, l) with
      | some x => (x, cache)
      | none => count_moves_memo prev d l cache
    let s := sum_moves_memo rest d l r.2
    (r.1 + s.1, s.2)
termination_by path _ l _ => (l, path.length + 1)

end

/-- The fold of `KeypadTable::moves_at_level`: unlike the fold inside
`count_moves`, it calls `count_moves` directly (no cache lookup first). -/
def moves_at_level_fold : List Dir → Dir → Nat → MoveCache → Nat × MoveCache
  | [], _, _, cache => (0, cache)
  | d :: rest, prev, l, cache =>
    let r := count_moves_memo prev d l cache
    let s := moves_at_level_fold rest d l r.2
    (r.1 + s.1, s.2)

/-- `KeypadTable::moves_at_level` from src/src/day_21.rs: clear the cache, then
fold `count_moves` at `depth - 1` over the path starting from `A`. -/
def moves_at_level (path : List Dir) (depth : Nat) : Nat :=
  (moves_at_level_fold path .A (depth - 1) []).1

/-- Every value stored in the cache is the value of the pure recursion. -/
def CacheOK (c : MoveCache) : Prop :=
  ∀ k v, alist_lookup c k = some v → v = count_moves_pure k.1 k.2.1 k.2.2

lemma cacheOK_nil : CacheOK [] := by
  intro k v h
  simp [alist_lookup] at h

lemma sum_moves_memo_spec_of_count (l : Nat)
    (hP : ∀ f t c, CacheOK c → (count_moves_memo f t l c).1 = count_moves_pure f t l ∧
      CacheOK (count_moves_memo f t l c).2) :
    ∀ path prev c, CacheOK c →
      (sum_moves_memo path prev l c).1 = sum_moves_pure path prev l ∧
      CacheOK (sum_moves_memo path prev l c).2 := by
  intro path
  induction path with
  | nil =>
    intro prev c hc
    simp only [sum_moves_memo, sum_moves_pure]
    exact ⟨trivial, hc⟩
  | cons d rest ih =>
    intro prev c hc
    simp only [sum_moves_memo, sum_moves_pure]
    rcases hl : alist_lookup c (prev, d, l) with - | x
    · have hcount := hP prev d c hc
      have hsum := ih d (count_moves_memo prev d l c).2 hcount.2
      simp only [hl]
      exact ⟨by rw [hcount.1, hsum.1], hsum.2⟩
    · have hx : x = count_moves_pure prev d l := hc (prev, d, l) x hl
      have hsum := ih d c hc
      simp only [hl]
      exact ⟨by rw [hx, hsum.1], hsum.2⟩

lemma count_moves_memo_spec :
    ∀ l f t c, CacheOK c →
      (count_moves_memo f t l c).1 = count_moves_pure f t l ∧
      CacheOK (count_moves_memo f t l c).2 := by
  intro l
  induction l with
  | zero =>
    intro f t c hc
    simp only [count_moves_memo, count_moves_pure]
    exact ⟨trivial, hc⟩
  | succ l ih =>
    intro f t c hc
    have hsum := sum_moves_memo_spec_of_count l (fun f t c hc => ih f t c hc)
      (dir_table f t) .A c hc
    simp only [count_moves_memo, count_moves_pure]
    refine ⟨hsum.1, ?_⟩
    intro k v hk
    simp only [alist_lookup] at hk
    split at hk
    · rename_i heq
      have hv : v = (sum_moves_memo (dir_table f t) Dir.A l c).1 :=
        (Option.some.inj hk).symm
      subst heq
      rw [hv, hsum.1]
      simp only [count_moves_pure]
    · exact hsum.2 k v hk

lemma moves_at_level_fold_spec :
    ∀ path prev l c, CacheOK c →
      (moves_at_level_fold path prev l c).1 = sum_moves_pure path prev l := by
  intro path
  induction path with
  | nil =>
    intro prev l c hc
    simp only [moves_at_level_fold, sum_moves_pure]
  | cons d rest ih =>
    intro prev l c hc
    have hcount := count_moves_memo_spec l prev d c hc
    simp only [moves_at_level_fold, sum_moves_pure]
    rw [ih d l (count_moves_memo prev d l c).2 hcount.2, hcount.1]

/-- C6: the memoized day-21 keystroke counter computes exactly the cache-free
recursion: `moves_at_level` (which clears the cache before each top-level path)
equals the pure fold, and `count_moves` started from any cache whose entries
agree with the pure recursion returns the pure value. -/
theorem memoization_preserves_count_moves :
    (∀ path depth, moves_at_level path depth = sum_moves_pure path .A (depth - 1)) ∧
    (∀ f t level c, CacheOK c →
      (count_moves_memo f t level c).1 = count_moves_pure f t level) := by
  constructor
  · intro path depth
    exact moves_at_level_fold_spec path .A (depth - 1) [] cacheOK_nil
  · intro f t level c hc
    exact (count_moves_memo_spec level f t c hc).1

/-- C6 witness: from the empty cache (which trivially satisfies the cache
invariant), the memoized counter agrees with the pure recursion at a concrete
pair and level. -/
theorem memoization_preserves_count_moves_witness :
    CacheOK [] ∧ (count_moves_memo .A .Left 3 []).1 = count_moves_pure .A .Left 3 :=
  ⟨cacheOK_nil, memoization_preserves_count_moves.2 .A .Left 3 [] cacheOK_nil⟩

/-! ## Day 22 (src/aoc2024/src/day_22.rs) -/

/-- `SecretGenerator::next_bare` from src/aoc2024/src/day_22.rs. `u64`
multiplications are taken `% 2^64` (wrapping semantics; after the first
`% 16777216` every intermediate fits easily in 64 bits). -/
def next_bare (value : Nat) : Nat :=
  let tmp1 := (value * 64) % (2 ^ 64)
  let tmp2 := value ^^^ tmp1
  let new_secret := tmp2 % 16777216
  let tmp3 := new_secret / 32
  let tmp4 := new_secret ^^^ tmp3
  let next_secret := tmp4 % 16777216
  let tmp5 := (next_secret * 2048) % (2 ^ 64)
  let tmp6 := next_secret ^^^ tmp5
  tmp6 % 16777216

/-- The secret sequence built in `MonkeyBroker::new`: the seed followed by `n`
successive `next` values. -/
def secrets_list (seed n : Nat) : List Nat :=
  (List.range (n + 1)).map (fun i => next_bare^[i] seed)

/-- Rust `slice::windows(n)`: all contiguous length-`n` windows in order. -/
def windows {α : Type} (n : Nat) (l : List α) : List (List α) :=
  (List.range (l.length + 1 - n)).map (fun i => (l.drop i).take n)

/-- `HashMap::entry(key).or_insert(v)`: keep an existing entry, insert
otherwise. -/
def or_insert (m : List (List Int × Int)) (k : List Int) (v : Int) :
    List (List Int × Int) :=
  match alist_lookup m k with
  | some _ => m
  | none => (k, v) :: m

/-- `MonkeyBroker::analyze_prices`: for each length-4 window of diffs (with its
index `i`), record `prices[i + 4]` under the window unless the window is
already present. -/
def analyze_prices (prices diffs : List Int) : List (List Int × Int) :=
  ((windows 4 diffs).enum).foldl
    (fun m iw => or_insert m iw.2 (prices.getD (iw.1 + 4) 0)) []

/-- The prices of a broker: each secret modulo 10 (an `i8` cast, always in
`0..=9`). -/
def broker_prices (seed n : Nat) : List Int :=
  (secrets_list seed n).map (fun s => ((s % 10 : Nat) : Int))

/-- The consecutive price differences (`windows(2)` of the prices). -/
def broker_diffs (seed n : Nat) : List Int :=
  (windows 2 (broker_prices seed n)).map (fun w => w.getD 1 0 - w.getD 0 0)

/-- The `sell_prices` map of `MonkeyBroker::new`. -/
def broker_sell_prices (seed n : Nat) : List (List Int × Int) :=
  analyze_prices (broker_prices seed n) (broker_diffs seed n)

/-- `MonkeyStockExchange::new`: one broker per seed line. -/
def exchange_brokers (seeds : List Nat) (n : Nat) : List (List (List Int × Int)) :=
  seeds.map (fun seed => broker_sell_prices seed n)

/-- `MonkeyStockExchange::seq_sell_price`: sum over brokers of the sequence's
sell price, defaulting to 0 when the broker never saw the sequence. -/
def seq_sell_price (brokers : List (List (List Int × Int))) (seq : List Int) : Int :=
  (brokers.map (fun b => (alist_lookup b seq).getD 0)).sum

/-- The loop state of `find_sell_sequence`: the `checked_seq_cache` of visited
sequences, the best sequence, and the best price. -/
def fss_fold (brokers : List (List (List Int × Int))) :
    List (List Int) × List Int × Int → List (List Int) → List (List Int) × List Int × Int
  | st, [] => st
  | (seen, best), seq :: rest =>
    if seq ∈ seen then fss_fold brokers (seen, best) rest
    else
      let price := seq_sell_price brokers seq
      let best2 := if price > best.2 then (seq, price) else best
      fss_fold brokers (seq :: seen, best2) rest

/-- `MonkeyStockExchange::find_sell_sequence` from src/aoc2024/src/day_22.rs,
with the hash-map visiting order passed explicitly as `visit` (the
concatenation, over the brokers, of each broker's key iteration): starting from
best sequence `[0,0,0,0]` and best price 0, fold over the candidates skipping
repeats, then return the sell price of the best sequence found. -/
def find_sell_sequence (brokers : List (List (List Int × Int)))
    (visit : List (List Int)) : Int :=
  let st := fss_fold brokers ([], ([0, 0, 0, 0], 0)) visit
  seq_sell_price brokers st.2.1

/-- All keys appearing in some broker's `sell_prices` map — the set of
candidate sequences any key-iteration order enumerates. -/
def all_broker_keys (brokers : List (List (List Int × Int))) : List (List Int) :=
  brokers.flatMap (fun b => b.map (fun kv => kv.1))

lemma alist_lookup_mem {α β : Type} [DecidableEq α] :
    ∀ (m : List (α × β)) (k : α) (v : β), alist_lookup m k = some v → (k, v) ∈ m := by
  intro m
  induction m with
  | nil => intro k v h; simp [alist_lookup] at h
  | cons kv rest ih =>
    intro k v h
    obtain ⟨k0, v0⟩ := kv
    rw [alist_lookup] at h
    split at h
    · rename_i heq
      obtain rfl := heq
      obtain rfl := Option.some.inj h
      exact List.mem_cons_self _ _
    · exact List.mem_cons_of_mem _ (ih k v h)

lemma alist_lookup_eq_none {α β : Type} [DecidableEq α] :
    ∀ (m : List (α × β)) (k : α), k ∉ m.map (fun kv => kv.1) → alist_lookup m k = none := by
  intro m
  induction m with
  | nil => intro k h; rfl
  | cons kv rest ih =>
    intro k h
    obtain ⟨k0, v0⟩ := kv
    simp only [List.map_cons, List.mem_cons, not_or] at h
    rw [alist_lookup]
    rw [if_neg (fun heq => h.1 heq.symm)]
    exact ih k h.2

lemma getD_nonneg {l : List Int} (hl : ∀ x ∈ l, 0 ≤ x) (i : Nat) : 0 ≤ l.getD i 0 := by
  rw [List.getD_eq_getElem?_getD]
  rcases hg : l[i]? with - | x
  · simp
  · simp only [Option.getD_some]
    exact hl x (List.getElem?_mem hg)

lemma analyze_prices_values_nonneg {prices diffs : List Int}
    (hp : ∀ x ∈ prices, 0 ≤ x) :
    ∀ kv ∈ analyze_prices prices diffs, 0 ≤ kv.2 := by
  unfold analyze_prices
  generalize (windows 4 diffs).enum = l
  have main : ∀ (l : List (Nat × List Int)) (m : List (List Int × Int)),
      (∀ kv ∈ m, 0 ≤ kv.2) →
      ∀ kv ∈ l.foldl (fun m iw => or_insert m iw.2 (prices.getD (iw.1 + 4) 0)) m,
        0 ≤ kv.2 := by
    intro l
    induction l with
    | nil => intro m hm; exact hm
    | cons iw rest ih =>
      intro m hm
      rw [List.foldl_cons]
      refine ih _ ?_
      unfold or_insert
      split
      · exact hm
      · intro kv hkv
        rcases List.mem_cons.1 hkv with rfl | h
        · exact getD_nonneg hp _
        · exact hm kv h
  exact main l [] (by intro kv h; simp at h)

lemma broker_prices_nonneg (seed n : Nat) : ∀ x ∈ broker_prices seed n, 0 ≤ x := by
  intro x hx
  unfold broker_prices at hx
  obtain ⟨s, -, rfl⟩ := List.mem_map.1 hx
  exact Int.natCast_nonneg _

lemma broker_values_nonneg (seeds : List Nat) (n : Nat) :
    ∀ b ∈ exchange_brokers seeds n, ∀ kv ∈ b, 0 ≤ kv.2 := by
  intro b hb
  obtain ⟨seed, -, rfl⟩ := List.mem_map.1 hb
  exact analyze_prices_values_nonneg (broker_prices_nonneg seed n)

lemma seq_sell_price_nonneg {brokers : List (List (List Int × Int))}
    (hb : ∀ b ∈ brokers, ∀ kv ∈ b, 0 ≤ kv.2) (seq : List Int) :
    0 ≤ seq_sell_price brokers seq := by
  unfold seq_sell_price
  refine List.sum_nonneg ?_
  intro x hx
  obtain ⟨b, hbm, rfl⟩ := List.mem_map.1 hx
  rcases hl : alist_lookup b seq with - | v
  · simp
  · simp only [hl, Option.getD_some]
    exact hb b hbm (seq, v) (alist_lookup_mem b seq v hl)

lemma seq_sell_price_of_not_key {brokers : List (List (List Int × Int))}
    {seq : List Int} (h : seq ∉ all_broker_keys brokers) :
    seq_sell_price brokers seq = 0 := by
  unfold seq_sell_price
  refine List.sum_eq_zero ?_
  intro x hx
  obtain ⟨b, hbm, rfl⟩ := List.mem_map.1 hx
  have hk : seq ∉ b.map (fun kv => kv.1) := by
    intro hkm
    exact h (List.mem_flatMap.2 ⟨b, hbm, hkm⟩)
  rw [alist_lookup_eq_none b seq hk]
  rfl

lemma fss_fold_spec (brokers : List (List (List Int × Int))) :
    ∀ (visit seen : List (List Int)) (bseq : List Int) (bp : Int),
      0 ≤ bp →
      (bp = 0 ∧ bseq = [0, 0, 0, 0] ∨ seq_sell_price brokers bseq = bp) →
      (∀ s ∈ seen, seq_sell_price brokers s ≤ bp) →
      0 ≤ (fss_fold brokers (seen, bseq, bp) visit).2.2 ∧
      ((fss_fold brokers (seen, bseq, bp) visit).2.2 = 0 ∧
          (fss_fold brokers (seen, bseq, bp) visit).2.1 = [0, 0, 0, 0] ∨
        seq_sell_price brokers (fss_fold brokers (seen, bseq, bp) visit).2.1 =
          (fss_fold brokers (seen, bseq, bp) visit).2.2) ∧
      bp ≤ (fss_fold brokers (seen, bseq, bp) visit).2.2 ∧
      (∀ s ∈ visit,
        seq_sell_price brokers s ≤ (fss_fold brokers (seen, bseq, bp) visit).2.2) ∧
      ((fss_fold brokers (seen, bseq, bp) visit).2.2 = bp ∨
        ∃ s ∈ visit,
          seq_sell_price brokers s = (fss_fold brokers (seen, bseq, bp) visit).2.2) := by
  intro visit
  induction visit with
  | nil =>
    intro seen bseq bp hbp hinv hseen
    simp only [fss_fold]
    refine ⟨hbp, hinv, le_refl bp, ?_, Or.inl trivial⟩
    intro s hs
    simp at hs
  | cons seq rest ih =>
    intro seen bseq bp hbp hinv hseen
    by_cases hmem : seq ∈ seen
    · rw [show fss_fold brokers (seen, bseq, bp) (seq :: rest) =
          fss_fold brokers (seen, bseq, bp) rest by rw [fss_fold]; simp [hmem]]
      obtain ⟨a1, a2, a3, a4, a5⟩ := ih seen bseq bp hbp hinv hseen
      refine ⟨a1, a2, a3, ?_, ?_⟩
      · intro s hs
        rcases List.mem_cons.1 hs with rfl | hs2
        · exact le_trans (hseen s hmem) a3
        · exact a4 s hs2
      · rcases a5 with h | ⟨s, hs, hp⟩
        · exact Or.inl h
        · exact Or.inr ⟨s, List.mem_cons_of_mem _ hs, hp⟩
    · by_cases hgt : seq_sell_price brokers seq > bp
      · rw [show fss_fold brokers (seen, bseq, bp) (seq :: rest) =
            fss_fold brokers (seq :: seen, seq, seq_sell_price brokers seq) rest by
          rw [fss_fold]; simp [hmem, hgt]]
        have hbp2 : (0 : Int) ≤ seq_sell_price brokers seq := le_of_lt (lt_of_le_of_lt hbp hgt)
        have hseen2 : ∀ s ∈ seq :: seen,
            seq_sell_price brokers s ≤ seq_sell_price brokers seq := by
          intro s hs
          rcases List.mem_cons.1 hs with rfl | hs2
          · exact le_refl _
          · exact le_trans (hseen s hs2) (le_of_lt hgt)
        obtain ⟨a1, a2, a3, a4, a5⟩ :=
          ih (seq :: seen) seq (seq_sell_price brokers seq) hbp2 (Or.inr rfl) hseen2
        refine ⟨a1, a2, le_trans (le_of_lt hgt) a3, ?_, ?_⟩
        · intro s hs
          rcases List.mem_cons.1 hs with rfl | hs2
          · exact a3
          · exact a4 s hs2
        · rcases a5 with h | ⟨s, hs, hp⟩
          · exact Or.inr ⟨seq, List.mem_cons_self _ _, h.symm⟩
          · exact Or.inr ⟨s, List.mem_cons_of_mem _ hs, hp⟩
      · rw [show fss_fold brokers (seen, bseq, bp) (seq :: rest) =
            fss_fold brokers (seq :: seen, bseq, bp) rest by
          rw [fss_fold]; simp [hmem, hgt]]
        have hseen2 : ∀ s ∈ seq :: seen, seq_sell_price brokers s ≤ bp := by
          intro s hs
          rcases List.mem_cons.1 hs with rfl | hs2
          · exact le_of_not_lt hgt
          · exact hseen s hs2
        obtain ⟨a1, a2, a3, a4, a5⟩ := ih (seq :: seen) bseq bp hbp hinv hseen2
        refine ⟨a1, a2, a3, ?_, ?_⟩
        · intro s hs
          rcases List.mem_cons.1 hs with rfl | hs2
          · exact le_trans (le_of_not_lt hgt) a3
          · exact a4 s hs2
        · rcases a5 with h | ⟨s, hs, hp⟩
          · exact Or.inl h
          · exact Or.inr ⟨s, List.mem_cons_of_mem _ hs, hp⟩

/-- The value `find_sell_sequence` returns is the canonical one determined by
the key set alone: nonnegative, an upper bound of all candidate prices, and
either zero or attained by some candidate. -/
lemma find_sell_sequence_canonical (brokers : List (List (List Int × Int)))
    (hb : ∀ b ∈ brokers, ∀ kv ∈ b, 0 ≤ kv.2) (visit : List (List Int))
    (hv : ∀ s, s ∈ visit ↔ s ∈ all_broker_keys brokers) :
    0 ≤ find_sell_sequence brokers visit ∧
    (∀ s ∈ all_broker_keys brokers,
      seq_sell_price brokers s ≤ find_sell_sequence brokers visit) ∧
    (find_sell_sequence brokers visit = 0 ∨
      ∃ s ∈ all_broker_keys brokers,
        seq_sell_price brokers s = find_sell_sequence brokers visit) := by
  obtain ⟨a1, a2, a3, a4, a5⟩ :=
    fss_fold_spec brokers visit [] [0, 0, 0, 0] 0 (le_refl 0) (Or.inl ⟨rfl, rfl⟩)
      (by intro s hs; simp at hs)
  set st := fss_fold brokers ([], [0, 0, 0, 0], 0) visit with hst
  have hval : find_sell_sequence brokers visit = st.2.2 := by
    rcases a2 with ⟨hz, hd⟩ | hq
    · show seq_sell_price brokers st.2.1 = st.2.2
      rw [hd, hz]
      by_cases hin : [0, 0, 0, 0] ∈ visit
      · have h4 := a4 _ hin
        rw [hz] at h4
        exact le_antisymm h4 (seq_sell_price_nonneg hb _)
      · exact seq_sell_price_of_not_key (fun hk => hin ((hv _).2 hk))
    · exact hq
  rw [hval]
  refine ⟨a1, ?_, ?_⟩
  · intro s hs
    exact a4 s ((hv s).2 hs)
  · rcases a5 with h | ⟨s, hs, hp⟩
    · exact Or.inl h
    · exact Or.inr ⟨s, (hv s).1 hs, hp⟩

/-- C8: day 22's `find_sell_sequence` is a deterministic function of the parsed
input: for brokers built from any seed list, any two hash-map key iteration
orders (any two lists enumerating exactly the candidate sequences) produce the
same result. -/
theorem find_sell_sequence_order_independent (seeds : List Nat) (n : Nat)
    (visit1 visit2 : List (List Int))
    (h1 : ∀ s, s ∈ visit1 ↔ s ∈ all_broker_keys (exchange_brokers seeds n))
    (h2 : ∀ s, s ∈ visit2 ↔ s ∈ all_broker_keys (exchange_brokers seeds n)) :
    find_sell_sequence (exchange_brokers seeds n) visit1 =
      find_sell_sequence (exchange_brokers seeds n) visit2 := by
  have hb := broker_values_nonneg seeds n
  obtain ⟨b1, b2, b3⟩ := find_sell_sequence_canonical _ hb visit1 h1
  obtain ⟨c1, c2, c3⟩ := find_sell_sequence_canonical _ hb visit2 h2
  refine le_antisymm ?_ ?_
  · rcases b3 with h | ⟨s, hs, hp⟩
    · exact h ▸ c1
    · exact hp ▸ c2 s hs
  · rcases c3 with h | ⟨s, hs, hp⟩
    · exact h ▸ b1
    · exact hp ▸ b2 s hs

/-- C8 witness: for the concrete exchange built from seed 1 with 4 iterations,
visiting the candidate sequences in key order and in reversed order yields the
same answer. -/
theorem find_sell_sequence_order_independent_witness :
    (∀ s, s ∈ all_broker_keys (exchange_brokers [1] 4) ↔
      s ∈ all_broker_keys (exchange_brokers [1] 4)) ∧
    (∀ s, s ∈ (all_broker_keys (exchange_brokers [1] 4)).reverse ↔
      s ∈ all_broker_keys (exchange_brokers [1] 4)) ∧
    find_sell_sequence (exchange_brokers [1] 4)
        (all_broker_keys (exchange_brokers [1] 4)) =
      find_sell_sequence (exchange_brokers [1] 4)
        ((all_broker_keys (exchange_brokers [1] 4)).reverse) :=
  ⟨fun _ => Iff.rfl, fun _ => List.mem_reverse,
    find_sell_sequence_order_independent [1] 4 _ _ (fun _ => Iff.rfl)
      (fun _ => List.mem_reverse)⟩

/-! ## Day 8's `SubsetGenerator` (src/aoc2024/src/day_8.rs), reused by day 23 -/

/-- `usize` wraps at `2^64`. -/
def W64 : Nat := 2 ^ 64

/-- The consecutive values `a+1, a+2, ...` written above a bumped index by the
reset loop of `SubsetGenerator::next` (`reset_val = a + 1` then `reset_val += 1`
per slot, with wrapping `usize` additions). -/
def resets (a k : Nat) : List Nat :=
  (List.range k).map (fun i => (a + 1 + i) % W64)

/-- `SubsetGenerator::next` from src/aoc2024/src/day_8.rs on the index state
`[s_0, ..., s_(m-1)]`: the source scans `k` from `m-1` downwards for the first
index with `s_k + 1 < bound_k` (where `bound_k` is `s_(k+1)`, or `n` for the
last index), bumps it and resets every higher index to consecutive values; this
recursion tries the tail (the higher indices) first, which is the same scan. -/
def subgen_succ : List Nat → Nat → Option (List Nat)
  | [], _ => none
  | x :: xs, n =>
    match subgen_succ xs n with
    | some t => some (x :: t)
    | none =>
      let a := (x + 1) % W64
      let bound := match xs with
        | [] => n
        | y :: _ => y
      if a < bound then some (a :: resets a xs.length) else none

/-- `SubsetGenerator::new(m, n)`: indices `0..m` with the last decremented by
one — wrapping, which for `m = 1` gives `2^64 - 1` (the release-mode trick that
makes the first `next` yield the initial configuration). -/
def subgen_init (m : Nat) : List Nat :=
  match m with
  | 0 => []
  | k + 1 => List.range k ++ [(k + W64 - 1) % W64]

/-- Repeated calls to `next`, collecting every `Some` state until `None` (the
generator leaves its state untouched when it returns `None`, so the first
`None` is final); `fuel` bounds the number of calls. -/
def subgen_run (n : Nat) : Nat → List Nat → List (List Nat)
  | 0, _ => []
  | fuel + 1, s =>
    match subgen_succ s n with
    | none => []
    | some t => t :: subgen_run n fuel t

/-- The full output sequence of `SubsetGenerator::new(m, n)`. -/
def subgen_outputs (m n : Nat) : List (List Nat) :=
  subgen_run n (Nat.choose n m) (subgen_init m)

/-- Strictly increasing lists with entries in `[lo, n)`. -/
def Asc : Nat → Nat → List Nat → Prop
  | _, _, [] => True
  | lo, n, x :: xs => lo ≤ x ∧ x < n ∧ Asc (x + 1) n xs

instance instDecidableAsc : ∀ (lo n : Nat) (l : List Nat), Decidable (Asc lo n l)
  | _, _, [] => .isTrue trivial
  | lo, n, x :: xs =>
    have _ih : Decidable (Asc (x + 1) n xs) := instDecidableAsc (x + 1) n xs
    inferInstanceAs (Decidable (lo ≤ x ∧ x < n ∧ Asc (x + 1) n xs))

/-- Strict lexicographic order on index states. -/
def lexLt : List Nat → List Nat → Prop
  | [], [] => False
  | [], _ :: _ => True
  | _ :: _, [] => False
  | x :: xs, y :: ys => x < y ∨ (x = y ∧ lexLt xs ys)

instance instDecidableLexLt : ∀ (a b : List Nat), Decidable (lexLt a b)
  | [], [] => .isFalse (fun h => h)
  | [], _ :: _ => .isTrue trivial
  | _ :: _, [] => .isFalse (fun h => h)
  | x :: xs, y :: ys =>
    have _ih : Decidable (lexLt xs ys) := instDecidableLexLt xs ys
    inferInstanceAs (Decidable (x < y ∨ (x = y ∧ lexLt xs ys)))

lemma lexLt_irrefl : ∀ l : List Nat, ¬lexLt l l := by
  intro l
  induction l with
  | nil => exact fun h => h
  | cons x xs ih =>
    rintro (h | ⟨-, h⟩)
    · exact lt_irrefl x h
    · exact ih h

lemma lexLt_asymm : ∀ a b : List Nat, lexLt a b → lexLt b a → False := by
  intro a
  induction a with
  | nil =>
    intro b h1 h2
    cases b with
    | nil => exact h1
    | cons y ys => exact h2
  | cons x xs ih =>
    intro b h1 h2
    cases b with
    | nil => exact h1
    | cons y ys =>
      rcases h1 with h1 | ⟨rfl, h1⟩
      · rcases h2 with h2 | ⟨rfl, h2⟩
        · exact absurd h1 (lt_asymm h2)
        · exact lt_irrefl _ h1
      · rcases h2 with h2 | ⟨-, h2⟩
        · exact lt_irrefl _ h2
        · exact ih ys h1 h2

lemma lexLt_trans : ∀ a b c : List Nat, lexLt a b → lexLt b c → lexLt a c := by
  intro a
  induction a with
  | nil =>
    intro b c h1 h2
    cases b with
    | nil => exact absurd h1 (fun h => h)
    | cons y ys =>
      cases c with
      | nil => exact absurd h2 (fun h => h)
      | cons z zs => exact trivial
  | cons x xs ih =>
    intro b c h1 h2
    cases b with
    | nil => exact absurd h1 (fun h => h)
    | cons y ys =>
      cases c with
      | nil => exact absurd h2 (fun h => h)
      | cons z zs =>
        rcases h1 with h1 | ⟨rfl, h1⟩
        · rcases h2 with h2 | ⟨rfl, h2⟩
          · exact Or.inl (lt_trans h1 h2)
          · exact Or.inl h1
        · rcases h2 with h2 | ⟨rfl, h2⟩
          · exact Or.inl h2
          · exact Or.inr ⟨rfl, ih ys zs h1 h2⟩

lemma asc_le_bound : ∀ (l : List Nat) (lo n x : Nat), Asc lo n (x :: l) →
    x + 1 + l.length ≤ n := by
  intro l
  induction l with
  | nil =>
    intro lo n x h
    obtain ⟨-, h2, -⟩ := h
    simpa using h2
  | cons y ys ih =>
    intro lo n x h
    obtain ⟨-, -, h3⟩ := h
    have hy := ih (x + 1) n y h3
    have hxy : x + 1 ≤ y := h3.1
    simp only [List.length_cons]
    omega

lemma asc_weaken {lo lo2 n : Nat} {l : List Nat} (h : Asc lo n l) (hle : lo2 ≤ lo) :
    Asc lo2 n l := by
  cases l with
  | nil => trivial
  | cons x xs => exact ⟨le_trans hle h.1, h.2.1, h.2.2⟩

lemma asc_range (s k n : Nat) (h : s + k ≤ n) : Asc s n (List.range' s k) := by
  induction k generalizing s with
  | zero => trivial
  | succ k ih =>
    rw [List.range'_succ]
    exact ⟨le_refl s, by omega, ih (s + 1) (by omega)⟩

lemma resets_eq_range {a k n : Nat} (hn : n < W64) (h : a + k ≤ n) :
    resets a k = List.range' (a + 1) k := by
  unfold resets
  rw [List.range'_eq_map_range]
  refine List.map_congr_left ?_
  intro i hi
  rw [List.mem_range] at hi
  have hlt : a + 1 + i < W64 := by omega
  rw [Nat.mod_eq_of_lt hlt]

lemma subgen_succ_append {p tail u : List Nat} {n : Nat}
    (h : subgen_succ tail n = some u) :
    subgen_succ (p ++ tail) n = some (p ++ u) := by
  induction p with
  | nil => simpa using h
  | cons x p ih =>
    rw [List.cons_append]
    simp only [subgen_succ, ih]
    rfl

lemma subgen_succ_singleton {x n : Nat} (hlt : (x + 1) % W64 < n) :
    subgen_succ [x] n = some [(x + 1) % W64] := by
  simp only [subgen_succ]
  rw [if_pos hlt]
  rfl

lemma subgen_succ_init (m n : Nat) (h1 : 1 ≤ m) (h2 : m ≤ n) (hn : n < W64) :
    subgen_succ (subgen_init m) n = some (List.range m) := by
  obtain ⟨k, rfl⟩ : ∃ k, m = k + 1 := ⟨m - 1, by omega⟩
  have hW : 0 < W64 := by unfold W64; positivity
  have hc : ((k + W64 - 1) % W64 + 1) % W64 = k := by
    rw [Nat.mod_add_mod]
    have h64 : k + W64 - 1 + 1 = k + W64 := by omega
    rw [h64, Nat.add_mod_right]
    exact Nat.mod_eq_of_lt (by omega)
  have hsingle : subgen_succ [(k + W64 - 1) % W64] n = some [k] := by
    rw [subgen_succ_singleton (by rw [hc]; omega)]
    rw [hc]
  rw [subgen_init]
  rw [subgen_succ_append hsingle]
  rw [← List.range_succ]


/-- The one-step equation of `subgen_succ` on a non-empty state. -/
lemma subgen_succ_cons (x : Nat) (xs : List Nat) (n : Nat) :
    subgen_succ (x :: xs) n =
      match subgen_succ xs n with
      | some t => some (x :: t)
      | none =>
        if (x + 1) % W64 < (match xs with | [] => n | y :: _ => y) then
          some (((x + 1) % W64) :: resets ((x + 1) % W64) xs.length)
        else none := rfl

lemma subgen_succ_none_iff {n : Nat} (hn : n < W64) :
    ∀ (l : List Nat) (lo : Nat), l ≠ [] → Asc lo n l →
      (subgen_succ l n = none ↔ l = List.range' (n - l.length) l.length) := by
  intro l
  induction l with
  | nil => intro lo h; exact absurd rfl h
  | cons x xs ih =>
    intro lo hne hasc
    obtain ⟨hlo, hxn, hxs⟩ := hasc
    have hx1 : (x + 1) % W64 = x + 1 := Nat.mod_eq_of_lt (by omega)
    cases xs with
    | nil =>
      rw [subgen_succ_cons]
      simp only [subgen_succ, hx1, List.length_cons, List.length_nil]
      constructor
      · intro h
        split at h
        · exact absurd h (by simp)
        · rename_i hge
          rw [List.range'_one]
          have hx : x = n - 1 := by omega
          rw [hx]
      · intro h
        rw [List.range'_one] at h
        injection h with h1 h2
        rw [if_neg (by omega)]
    | cons y ys =>
      have hbound := asc_le_bound (y :: ys) lo n x ⟨hlo, hxn, hxs⟩
      simp only [List.length_cons] at hbound
      have hxy : x + 1 ≤ y := hxs.1
      rcases hst : subgen_succ (y :: ys) n with - | u
      · have htl : y :: ys = List.range' (n - (ys.length + 1)) (ys.length + 1) := by
          have h0 := (ih (x + 1) (by simp) hxs).1 hst
          simpa using h0
        have hy : y = n - (ys.length + 1) := by
          have h0 := htl
          rw [List.range'_succ] at h0
          injection h0 with h1 h2
        rw [subgen_succ_cons, hst]
        simp only [hx1, List.length_cons]
        constructor
        · intro h
          split at h
          · exact absurd h (by simp)
          · rename_i hge
            have hx : x = n - (ys.length + 1 + 1) := by omega
            rw [List.range'_succ]
            rw [show n - (ys.length + 1 + 1) + 1 = n - (ys.length + 1) by omega]
            rw [← htl, ← hx]
        · intro h
          rw [List.range'_succ] at h
          injection h with h1 h2
          rw [if_neg (by omega)]
      · rw [subgen_succ_cons, hst]
        simp only [List.length_cons]
        constructor
        · intro h
          exact absurd h (by simp)
        · intro h
          rw [List.range'_succ] at h
          injection h with h1 h2
          have hnone : subgen_succ (y :: ys) n = none := by
            refine (ih (x + 1) (by simp) hxs).2 ?_
            simpa [show n - (ys.length + 1 + 1) + 1 = n - (ys.length + 1) by omega] using h2
          rw [hnone] at hst
          exact absurd hst (by simp)

lemma asc_le_max {n : Nat} :
    ∀ (c : List Nat) (lo : Nat), Asc lo n c →
      c = List.range' (n - c.length) c.length ∨
        lexLt c (List.range' (n - c.length) c.length) := by
  intro c
  induction c with
  | nil => intro lo h; exact Or.inl rfl
  | cons x cs ih =>
    intro lo hasc
    obtain ⟨hlo, hxn, hcs⟩ := hasc
    have hbound := asc_le_bound cs lo n x ⟨hlo, hxn, hcs⟩
    simp only [List.length_cons]
    rw [List.range'_succ]
    rcases Nat.lt_or_ge x (n - (cs.length + 1)) with hlt | hge
    · exact Or.inr (Or.inl hlt)
    · have hx : x = n - (cs.length + 1) := by omega
      have hstep : n - (cs.length + 1) + 1 = n - cs.length := by omega
      rcases ih (x + 1) hcs with heq | hlex
      · left
        rw [← hx]
        have hx2 : n - cs.length = x + 1 := by omega
        rw [hx2] at heq
        rw [← heq]
      · right
        refine Or.inr ⟨hx, ?_⟩
        rwa [hstep]

lemma asc_ge_min {n : Nat} :
    ∀ (c : List Nat) (lo : Nat), Asc lo n c →
      c = List.range' lo c.length ∨ lexLt (List.range' lo c.length) c := by
  intro c
  induction c with
  | nil => intro lo h; exact Or.inl rfl
  | cons x cs ih =>
    intro lo hasc
    obtain ⟨hlo, hxn, hcs⟩ := hasc
    simp only [List.length_cons]
    rw [List.range'_succ]
    rcases Nat.lt_or_ge lo x with hlt | hge
    · exact Or.inr (Or.inl hlt)
    · have hx : lo = x := by omega
      rcases ih (x + 1) hcs with heq | hlex
      · left
        rw [hx, ← heq]
      · right
        refine Or.inr ⟨hx, ?_⟩
        rwa [hx]

lemma subgen_succ_some_spec {n : Nat} (hn : n < W64) :
    ∀ (l : List Nat) (lo : Nat) (t : List Nat), Asc lo n l →
      subgen_succ l n = some t →
      Asc lo n t ∧ t.length = l.length ∧ lexLt l t ∧
      ∀ c, Asc lo n c → c.length = l.length → lexLt l c → t = c ∨ lexLt t c := by
  intro l
  induction l with
  | nil =>
    intro lo t h hs
    exact absurd hs (by simp [subgen_succ])
  | cons x xs ih =>
    intro lo t hasc hs
    obtain ⟨hlo, hxn, hxs⟩ := hasc
    have hx1 : (x + 1) % W64 = x + 1 := Nat.mod_eq_of_lt (by omega)
    rcases hst : subgen_succ xs n with - | u
    · rw [subgen_succ_cons, hst] at hs
      cases xs with
      | nil =>
        have hs2 : (if x + 1 < n then some ((x + 1) :: resets (x + 1) 0) else none) =
            some t := by
          have h0 : (if (x + 1) % W64 < n then
              some (((x + 1) % W64) :: resets ((x + 1) % W64) (List.length ([] : List Nat)))
            else none) = some t := hs
          rwa [hx1] at h0
        split at hs2
        · rename_i hcond
          have ht : t = [x + 1] := by
            have h1 := (Option.some.inj hs2).symm
            rw [h1]
            rfl
          subst ht
          refine ⟨⟨by omega, hcond, trivial⟩, rfl, Or.inl (by omega), ?_⟩
          intro c hc hlen hlex
          cases c with
          | nil => simp at hlen
          | cons c0 cs =>
            cases cs with
            | nil =>
              rcases hlex with hlt | ⟨-, hf⟩
              · rcases Nat.eq_or_lt_of_le (by omega : x + 1 ≤ c0) with heq | hlt2
                · exact Or.inl (by rw [heq])
                · exact Or.inr (Or.inl hlt2)
              · exact absurd hf (fun h => h)
            | cons c1 cs2 => simp at hlen
        · exact absurd hs2 (by simp)
      | cons y ys =>
        have htl : y :: ys = List.range' (n - (ys.length + 1)) (ys.length + 1) := by
          have h0 := (subgen_succ_none_iff hn (y :: ys) (x + 1) (by simp) hxs).1 hst
          simpa using h0
        have hbound := asc_le_bound (y :: ys) lo n x ⟨hlo, hxn, hxs⟩
        simp only [List.length_cons] at hbound
        have hy : y = n - (ys.length + 1) := by
          have h0 := htl
          rw [List.range'_succ] at h0
          injection h0 with h1 h2
        have hs2 : (if x + 1 < y then
            some ((x + 1) :: resets (x + 1) (ys.length + 1)) else none) = some t := by
          have h0 : (if (x + 1) % W64 < y then
              some (((x + 1) % W64) :: resets ((x + 1) % W64) (y :: ys).length)
            else none) = some t := hs
          rwa [hx1] at h0
        split at hs2
        · rename_i hcond
          have hre : resets (x + 1) (ys.length + 1) =
              List.range' (x + 1 + 1) (ys.length + 1) :=
            resets_eq_range hn (by omega)
          have ht : t = (x + 1) :: List.range' (x + 1 + 1) (ys.length + 1) := by
            rw [hre] at hs2
            exact (Option.some.inj hs2).symm
          subst ht
          have hAscT : Asc lo n ((x + 1) :: List.range' (x + 1 + 1) (ys.length + 1)) :=
            ⟨by omega, by omega, asc_range (x + 1 + 1) (ys.length + 1) n (by omega)⟩
          refine ⟨hAscT, by simp, Or.inl (by omega), ?_⟩
          intro c hc hlen hlex
          cases c with
          | nil => simp at hlen
          | cons c0 cs =>
            obtain ⟨hc0lo, hc0n, hcs⟩ := hc
            simp only [List.length_cons] at hlen
            have hcslen : cs.length = ys.length + 1 := by omega
            rcases hlex with hlt | ⟨heq0, hlex2⟩
            · rcases Nat.eq_or_lt_of_le (by omega : x + 1 ≤ c0) with heq | hlt2
              · subst heq
                rcases asc_ge_min cs (x + 1 + 1) hcs with hmin | hmin
                · left
                  rw [hcslen] at hmin
                  rw [hmin]
                · right
                  refine Or.inr ⟨rfl, ?_⟩
                  rwa [hcslen] at hmin
              · exact Or.inr (Or.inl hlt2)
            · exfalso
              subst heq0
              rcases asc_le_max cs (x + 1) hcs with hmax | hmax
              · rw [hcslen, ← htl] at hmax
                rw [hmax] at hlex2
                exact lexLt_irrefl _ hlex2
              · rw [hcslen, ← htl] at hmax
                exact lexLt_asymm _ _ hlex2 hmax
        · exact absurd hs2 (by simp)
    · rw [subgen_succ_cons, hst] at hs
      have hs2 : some (x :: u) = some t := hs
      have ht : t = x :: u := (Option.some.inj hs2).symm
      subst ht
      obtain ⟨hAscU, hlenU, hlexU, hleastU⟩ := ih (x + 1) u hxs hst
      refine ⟨⟨hlo, hxn, hAscU⟩, by simp [hlenU], Or.inr ⟨rfl, hlexU⟩, ?_⟩
      intro c hc hlen hlex
      cases c with
      | nil => simp at hlen
      | cons c0 cs =>
        obtain ⟨hc0lo, hc0n, hcs⟩ := hc
        simp only [List.length_cons] at hlen
        rcases hlex with hlt | ⟨heq0, hlex2⟩
        · exact Or.inr (Or.inl hlt)
        · subst heq0
          rcases hleastU cs hcs (by omega) hlex2 with heq | hlt2
          · left
            rw [heq]
          · exact Or.inr (Or.inr ⟨rfl, hlt2⟩)

lemma sublist_of_asc {n : Nat} :
    ∀ (l : List Nat) (lo : Nat), Asc lo n l → l.Sublist (List.range' lo (n - lo)) := by
  intro l
  induction l with
  | nil => intro lo h; exact List.nil_sublist _
  | cons x xs ih =>
    intro lo h
    obtain ⟨hlo, hxn, hxs⟩ := h
    have hx := ih (x + 1) hxs
    have h1 : lo + 1 * (x - lo) = x := by omega
    have h2 : n - x + (x - lo) = n - lo := by omega
    have hsplit : List.range' lo (n - lo) =
        List.range' lo (x - lo) ++ List.range' x (n - x) := by
      rw [← h2, ← List.range'_append, h1]
    rw [hsplit]
    have hx2 : List.range' x (n - x) = x :: List.range' (x + 1) (n - (x + 1)) := by
      rw [show n - x = n - (x + 1) + 1 by omega, List.range'_succ]
    refine List.Sublist.trans ?_ (List.sublist_append_right _ _)
    rw [hx2]
    exact List.Sublist.cons₂ x hx

lemma asc_of_pairwise {n : Nat} :
    ∀ (l : List Nat) (lo : Nat), l.Pairwise (· < ·) → (∀ x ∈ l, lo ≤ x ∧ x < n) →
      Asc lo n l := by
  intro l
  induction l with
  | nil => intro lo h1 h2; trivial
  | cons x xs ih =>
    intro lo h1 h2
    rw [List.pairwise_cons] at h1
    refine ⟨(h2 x (.head _)).1, (h2 x (.head _)).2, ih (x + 1) h1.2 ?_⟩
    intro z hz
    exact ⟨h1.1 z hz, (h2 z (.tail _ hz)).2⟩

lemma combo_iff_mem_sublistsLen {m n : Nat} {c : List Nat} :
    c ∈ List.sublistsLen m (List.range n) ↔ (Asc 0 n c ∧ c.length = m) := by
  rw [List.mem_sublistsLen]
  constructor
  · rintro ⟨hsub, hlen⟩
    refine ⟨asc_of_pairwise c 0 (List.Pairwise.sublist hsub (List.pairwise_lt_range n)) ?_, hlen⟩
    intro x hx
    exact ⟨Nat.zero_le x, List.mem_range.1 (hsub.subset hx)⟩
  · rintro ⟨hasc, hlen⟩
    refine ⟨?_, hlen⟩
    have h0 := sublist_of_asc c 0 hasc
    simpa [List.range_eq_range'] using h0

/-- The number of index states the generator still has to visit after `s`:
the valid states lexicographically above `s`. -/
def combos_above (m n : Nat) (s : List Nat) : Nat :=
  (List.sublistsLen m (List.range n)).countP (fun c => decide (lexLt s c))

lemma countP_eq_one_of_nodup_mem {α : Type} [DecidableEq α] :
    ∀ (l : List α) (t : α), l.Nodup → t ∈ l →
      l.countP (fun c => decide (c = t)) = 1 := by
  intro l t
  induction l with
  | nil => intro h1 h2; simp at h2
  | cons a l ih =>
    intro hnd hmem
    rw [List.countP_cons]
    rw [List.nodup_cons] at hnd
    rcases List.mem_cons.1 hmem with rfl | hmem2
    · have hz : l.countP (fun c => decide (c = t)) = 0 := by
        rw [List.countP_eq_zero]
        intro c hc
        simp only [decide_eq_true_eq]
        rintro rfl
        exact hnd.1 hc
      simp [hz]
    · have h1 := ih hnd.2 hmem2
      have hne : ¬a = t := by rintro rfl; exact hnd.1 hmem2
      simp [h1, hne]

lemma countP_not_eq {α : Type} (l : List α) (p : α → Bool) :
    l.countP (fun a => !p a) = l.length - l.countP p := by
  induction l with
  | nil => rfl
  | cons a l ih =>
    rw [List.countP_cons, List.countP_cons, List.length_cons, ih]
    have hle : l.countP p ≤ l.length := List.countP_le_length p
    cases hpa : p a <;> simp <;> omega

lemma countP_or_split {t : List Nat} :
    ∀ L : List (List Nat),
      L.countP (fun c => decide (c = t ∨ lexLt t c)) =
        L.countP (fun c => decide (c = t)) + L.countP (fun c => decide (lexLt t c)) := by
  intro L
  induction L with
  | nil => rfl
  | cons a L ihL =>
    rw [List.countP_cons, List.countP_cons, List.countP_cons, ihL]
    by_cases h1 : a = t
    · subst h1
      have h2 : ¬lexLt a a := lexLt_irrefl a
      simp [h2]
      omega
    · by_cases h2 : lexLt t a <;> simp [h1, h2] <;> omega

lemma combos_above_succ {m n : Nat} (hn : n < W64) {s t : List Nat}
    (hs : Asc 0 n s) (hlen : s.length = m) (hsucc : subgen_succ s n = some t) :
    combos_above m n s = combos_above m n t + 1 := by
  obtain ⟨hAscT, hlenT, hlexT, hleast⟩ := subgen_succ_some_spec hn s 0 t hs hsucc
  unfold combos_above
  have hpt : ∀ c ∈ List.sublistsLen m (List.range n),
      (decide (lexLt s c) = true ↔ decide (c = t ∨ lexLt t c) = true) := by
    intro c hc
    simp only [decide_eq_true_eq]
    obtain ⟨hAscC, hlenC⟩ := combo_iff_mem_sublistsLen.1 hc
    constructor
    · intro h
      rcases hleast c hAscC (by omega) h with heq | hlt
      · exact Or.inl heq.symm
      · exact Or.inr hlt
    · rintro (rfl | h)
      · exact hlexT
      · exact lexLt_trans _ _ _ hlexT h
  rw [List.countP_congr hpt, countP_or_split]
  have ht_mem : t ∈ List.sublistsLen m (List.range n) :=
    combo_iff_mem_sublistsLen.2 ⟨hAscT, by omega⟩
  have hnodup := List.nodup_sublistsLen m (List.nodup_range n)
  rw [countP_eq_one_of_nodup_mem _ _ hnodup ht_mem]
  omega

lemma combos_above_eq_zero {m n : Nat} (hn : n < W64) {s : List Nat}
    (hs : Asc 0 n s) (hlen : s.length = m) (hnone : subgen_succ s n = none) :
    combos_above m n s = 0 := by
  unfold combos_above
  rw [List.countP_eq_zero]
  intro c hc
  simp only [decide_eq_true_eq]
  intro hlex
  obtain ⟨hAscC, hlenC⟩ := combo_iff_mem_sublistsLen.1 hc
  by_cases hne : s = []
  · subst hne
    simp at hlen
    rw [← hlen] at hlenC
    rw [List.length_eq_zero] at hlenC
    subst hlenC
    exact lexLt_irrefl [] hlex
  · have hmax := (subgen_succ_none_iff hn s 0 hne hs).1 hnone
    rw [hlen] at hmax
    rcases asc_le_max c 0 hAscC with heq | hlt
    · rw [hlenC, ← hmax] at heq
      rw [heq] at hlex
      exact lexLt_irrefl _ hlex
    · rw [hlenC, ← hmax] at hlt
      exact lexLt_asymm _ _ hlex hlt

/-- The one-step equation of `subgen_run` with positive fuel. -/
lemma subgen_run_fuel_succ (n fuel : Nat) (s : List Nat) :
    subgen_run n (fuel + 1) s =
      match subgen_succ s n with
      | none => []
      | some t => t :: subgen_run n fuel t := rfl

lemma subgen_run_spec {m n : Nat} (hn : n < W64) :
    ∀ (k : Nat) (s : List Nat), Asc 0 n s → s.length = m → combos_above m n s = k →
      ∀ fuel, k ≤ fuel →
        (∀ c, c ∈ subgen_run n fuel s ↔ (Asc 0 n c ∧ c.length = m ∧ lexLt s c)) ∧
        (subgen_run n fuel s).Pairwise lexLt ∧
        (subgen_run n fuel s).length = k ∧
        subgen_run n fuel s = subgen_run n k s := by
  intro k
  induction k with
  | zero =>
    intro s hs hlen hcount fuel hfuel
    have hnone : subgen_succ s n = none := by
      rcases hsucc : subgen_succ s n with - | t
      · rfl
      · exfalso
        obtain ⟨hAscT, hlenT, hlexT, -⟩ := subgen_succ_some_spec hn s 0 t hs hsucc
        have ht_mem : t ∈ List.sublistsLen m (List.range n) :=
          combo_iff_mem_sublistsLen.2 ⟨hAscT, by omega⟩
        have hpos : 0 < combos_above m n s := by
          unfold combos_above
          rw [List.countP_pos_iff]
          exact ⟨t, ht_mem, by simp [hlexT]⟩
        omega
    have hrunz : ∀ f, subgen_run n f s = [] := by
      intro f
      cases f with
      | zero => rfl
      | succ f => rw [subgen_run_fuel_succ, hnone]
    have hnolex : ∀ c, Asc 0 n c → c.length = m → ¬lexLt s c := by
      intro c hc hcl hlex
      have hcm : c ∈ List.sublistsLen m (List.range n) :=
        combo_iff_mem_sublistsLen.2 ⟨hc, hcl⟩
      have h0 : (List.sublistsLen m (List.range n)).countP
          (fun c => decide (lexLt s c)) = 0 := hcount
      rw [List.countP_eq_zero] at h0
      have h1 := h0 c hcm
      simp [hlex] at h1
    rw [hrunz fuel, hrunz 0]
    refine ⟨?_, List.Pairwise.nil, rfl, rfl⟩
    intro c
    simp only [List.not_mem_nil, false_iff, not_and]
    intro h1 h2
    exact hnolex c h1 h2
  | succ k ihk =>
    intro s hs hlen hcount fuel hfuel
    rcases hsucc : subgen_succ s n with - | t
    · exfalso
      have h0 := combos_above_eq_zero hn hs hlen hsucc
      omega
    obtain ⟨hAscT, hlenT, hlexT, hleast⟩ := subgen_succ_some_spec hn s 0 t hs hsucc
    have hcountT : combos_above m n t = k := by
      have h0 := combos_above_succ hn hs hlen hsucc
      omega
    obtain ⟨f, rfl⟩ : ∃ f, fuel = f + 1 := ⟨fuel - 1, by omega⟩
    have hrun : subgen_run n (f + 1) s = t :: subgen_run n f t := by
      rw [subgen_run_fuel_succ, hsucc]
    obtain ⟨ihmem, ihpw, ihlen, ihfi⟩ := ihk t hAscT (by omega) hcountT f (by omega)
    refine ⟨?_, ?_, ?_, ?_⟩
    · intro c
      rw [hrun, List.mem_cons]
      constructor
      · rintro (rfl | hc)
        · exact ⟨hAscT, by omega, hlexT⟩
        · obtain ⟨h1, h2, h3⟩ := (ihmem c).1 hc
          exact ⟨h1, h2, lexLt_trans _ _ _ hlexT h3⟩
      · rintro ⟨h1, h2, h3⟩
        rcases hleast c h1 (by omega) h3 with heq | hlt
        · exact Or.inl heq.symm
        · exact Or.inr ((ihmem c).2 ⟨h1, h2, hlt⟩)
    · rw [hrun]
      refine List.Pairwise.cons ?_ ihpw
      intro c hc
      exact ((ihmem c).1 hc).2.2
    · rw [hrun, List.length_cons, ihlen]
    · rw [hrun]
      have hrunk : subgen_run n (k + 1) s = t :: subgen_run n k t := by
        rw [subgen_run_fuel_succ, hsucc]
      rw [hrunk, ihfi]

/-- C7: for `1 ≤ m ≤ n` (with `n` a `usize`, hence below `2^64`), repeated
calls to `next()` on `SubsetGenerator::new(m, n)` yield exactly the strictly
increasing `m`-element index sequences over `{0, ..., n-1}`, each exactly once
— `C(n, m)` outputs in total — after which every further call yields `None`
(beyond `C(n, m)` calls the output sequence never grows). -/
theorem subset_generator_enumerates (m n : Nat) (h1 : 1 ≤ m) (h2 : m ≤ n)
    (hn : n < W64) :
    (∀ c, c ∈ subgen_outputs m n ↔ (Asc 0 n c ∧ c.length = m)) ∧
    (subgen_outputs m n).Nodup ∧
    (subgen_outputs m n).length = Nat.choose n m ∧
    (∀ fuel, Nat.choose n m ≤ fuel →
      subgen_run n fuel (subgen_init m) = subgen_outputs m n) := by
  have hstep := subgen_succ_init m n h1 h2 hn
  have hfirstAsc : Asc 0 n (List.range m) := by
    have h0 := asc_range 0 m n (by omega)
    simpa [List.range_eq_range'] using h0
  have hfirstlen : (List.range m).length = m := List.length_range m
  have hKpos : 0 < Nat.choose n m := Nat.choose_pos h2
  have halllen : (List.sublistsLen m (List.range n)).length = Nat.choose n m := by
    rw [List.length_sublistsLen, List.length_range]
  have hnodupAll := List.nodup_sublistsLen m (List.nodup_range n)
  have hfirstmem : List.range m ∈ List.sublistsLen m (List.range n) :=
    combo_iff_mem_sublistsLen.2 ⟨hfirstAsc, hfirstlen⟩
  have hcount_first : combos_above m n (List.range m) = Nat.choose n m - 1 := by
    unfold combos_above
    have hpt : ∀ c ∈ List.sublistsLen m (List.range n),
        (decide (lexLt (List.range m) c) = true ↔
          (!decide (c = List.range m)) = true) := by
      intro c hc
      obtain ⟨hAscC, hlenC⟩ := combo_iff_mem_sublistsLen.1 hc
      simp only [decide_eq_true_eq, Bool.not_eq_true', decide_eq_false_iff_not]
      constructor
      · intro h
        rintro rfl
        exact lexLt_irrefl _ h
      · intro h
        rcases asc_ge_min c 0 hAscC with heq | hlt
        · exfalso
          rw [hlenC, ← List.range_eq_range'] at heq
          exact h heq
        · rwa [hlenC, ← List.range_eq_range'] at hlt
    rw [List.countP_congr hpt, countP_not_eq, halllen,
      countP_eq_one_of_nodup_mem _ _ hnodupAll hfirstmem]
  obtain ⟨f0, hf0⟩ : ∃ f0, Nat.choose n m = f0 + 1 := ⟨Nat.choose n m - 1, by omega⟩
  have hrun_init : ∀ f, subgen_run n (f + 1) (subgen_init m) =
      List.range m :: subgen_run n f (List.range m) := by
    intro f
    rw [subgen_run_fuel_succ, hstep]
  obtain ⟨hmem, hpw, hlenrun, hfi⟩ :=
    subgen_run_spec hn (Nat.choose n m - 1) (List.range m) hfirstAsc hfirstlen
      hcount_first f0 (by omega)
  have houts : subgen_outputs m n = List.range m :: subgen_run n f0 (List.range m) := by
    rw [subgen_outputs, hf0, hrun_init]
  refine ⟨?_, ?_, ?_, ?_⟩
  · intro c
    rw [houts, List.mem_cons]
    constructor
    · rintro (rfl | hc)
      · exact ⟨hfirstAsc, hfirstlen⟩
      · obtain ⟨a1, a2, -⟩ := (hmem c).1 hc
        exact ⟨a1, a2⟩
    · rintro ⟨hA, hL⟩
      rcases asc_ge_min c 0 hA with heq | hlt
      · left
        rw [hL, ← List.range_eq_range'] at heq
        exact heq
      · right
        refine (hmem c).2 ⟨hA, hL, ?_⟩
        rwa [hL, ← List.range_eq_range'] at hlt
  · rw [houts, List.nodup_cons]
    constructor
    · intro hmem2
      exact lexLt_irrefl _ ((hmem _).1 hmem2).2.2
    · refine List.Pairwise.imp ?_ hpw
      intro a b h
      rintro rfl
      exact lexLt_irrefl _ h
  · rw [houts, List.length_cons, hlenrun]
    omega
  · intro fuel hfuel
    obtain ⟨f, rfl⟩ : ∃ f, fuel = f + 1 := ⟨fuel - 1, by omega⟩
    rw [hrun_init f, houts]
    have hspec_f :=
      subgen_run_spec hn (Nat.choose n m - 1) (List.range m) hfirstAsc hfirstlen
        hcount_first f (by omega)
    rw [hspec_f.2.2.2, ← hfi]

/-- C7 witness: the theorem applied at `m = 2`, `n = 4`; the generator outputs
all six 2-element subsets of `{0, 1, 2, 3}`. -/
theorem subset_generator_enumerates_witness :
    (1 ≤ 2 ∧ 2 ≤ 4 ∧ (4 : Nat) < W64) ∧
    (subgen_outputs 2 4).length = Nat.choose 4 2 ∧
    subgen_outputs 2 4 = [[0, 1], [0, 2], [0, 3], [1, 2], [1, 3], [2, 3]] :=
  ⟨⟨by decide, by decide, by unfold W64; norm_num⟩,
    (subset_generator_enumerates 2 4 (by decide) (by decide)
      (by unfold W64; norm_num)).2.2.1,
    by decide⟩

end Aoc2024
